import Mathlib

/-!
Shallow embedding of the ParallaxGen virtual-file-system core:
`BethesdaDirectoryIterator` (archive priority resolution, file-map
construction) and `ParallaxGenDirectory` (config merging, asset
classification).  Strings are modelled as `List Char`; the filesystem,
INI reader, archive decoder and image decoder are external collaborators
and enter as explicit parameters holding the observations the code makes
of them.
-/

set_option autoImplicit false

/-- Strings of the C++ code, modelled as lists of characters. -/
abbrev Str := List Char

/-- Model of `s.starts_with(p)` on `std::string`: `startsWithS s p` is
true when `p` is a leading part of `s`. -/
def startsWithS : Str → Str → Bool
  | _, [] => true
  | [], _ :: _ => false
  | c :: cs, p :: ps => p = c && startsWithS cs ps

/-- Model of `isdigit(s[0])` on a `std::string` remainder: `s[0]` on an
empty string reads the terminating null character, and `isdigit('\0')`
is false. -/
def firstIsDigit : Str → Bool
  | [] => false
  | c :: _ => c.isDigit

/-- The archive-container extension as it appears in
`findBSAFilesFromPluginName`. -/
def bsaExt : Str := (".bsa").toList

/-- Model of `BethesdaDirectoryIterator::findBSAFilesFromPluginName`
(BethesdaDirectoryIterator.cpp lines 241-270): scan the archive-name
list; an exact `plugin + ".bsa"` match is inserted at the front of the
results gathered so far, a name sharing the plugin as a leading part is
kept only when the remainder starts with a digit or with a space
followed by a hyphen.  `bsaStep` is the loop body. -/
def bsaStep (plugin : Str) (acc : List Str) (bsa : Str) : List Str :=
  if startsWithS bsa plugin then
    if bsa = plugin ++ bsaExt then
      bsa :: acc
    else
      let rest := bsa.drop plugin.length
      if startsWithS rest ([' ']) && !startsWithS rest ([' ', '-']) then
        acc
      else if !startsWithS rest ([' ']) && !firstIsDigit rest then
        acc
      else
        acc ++ [bsa]
  else acc

def findBSAFilesFromPluginName (bsaFileList : List Str) (plugin : Str) : List Str :=
  bsaFileList.foldl (bsaStep plugin) []

/-- The acceptance rule of the specification: the name starts with the
plugin name and is either exactly `plugin + ".bsa"`, or continues with a
digit, or continues with a space followed by a hyphen. -/
def acceptBSA (plugin bsa : Str) : Bool :=
  startsWithS bsa plugin &&
    (bsa = plugin ++ bsaExt
      || firstIsDigit (bsa.drop plugin.length)
      || startsWithS (bsa.drop plugin.length) ([' ', '-']))

/-- Model of `std::string::find_last_of('.')`: index of the last `'.'`. -/
def lastDotIdx : Str → Option Nat
  | [] => none
  | c :: rest =>
    match lastDotIdx rest with
    | some i => some (i + 1)
    | none => if c = '.' then some 0 else none

/-- Model of `line.substr(0, line.find_last_of('.'))`: truncate at the
last `'.'`; when there is none, `find_last_of` returns `npos` and
`substr` keeps the whole line. -/
def trimExtensionAtLastDot (line : Str) : Str :=
  match lastDotIdx line with
  | none => line
  | some i => line.take i

/-- Model of `BethesdaDirectoryIterator::getPluginLoadOrder`
(BethesdaDirectoryIterator.cpp lines 149-182), over the lines read from
`loadorder.txt`: skip empty lines and lines starting with `'#'`,
optionally strip the extension, keep everything else in order. -/
def getPluginLoadOrder (trimExt : Bool) (lines : List Str) : List Str :=
  lines.foldl
    (fun acc line =>
      if line = [] ∨ line.headI = '#' then acc
      else acc ++ [if trimExt then trimExtensionAtLastDot line else line])
    []

/-- A load-order line that `getPluginLoadOrder` keeps: non-empty and
not beginning with `'#'`. -/
def keepsPluginLine (line : Str) : Bool :=
  !line.isEmpty && !(line.headI = '#')

/-- Model of the classic-locale `isspace` used by `boost::trim`. -/
def isSpaceC (c : Char) : Bool :=
  c = ' ' || c = '\t' || c = '\n' || c = '\x0b' || c = '\x0c' || c = '\r'

/-- Model of `boost::trim`: drop whitespace from both ends. -/
def trimStr (s : Str) : Str :=
  ((s.dropWhile isSpaceC).reverse.dropWhile isSpaceC).reverse

/-- Model of `boost::split(out, s, boost::is_any_of(","))`: split on
every comma, keeping empty tokens (the empty string yields one empty
token). -/
def splitComma : Str → List Str
  | [] => [[]]
  | c :: rest =>
    if c = ',' then [] :: splitComma rest
    else
      match splitComma rest with
      | t :: ts => (c :: t) :: ts
      | [] => [[c]]

/-- Model of `BethesdaDirectoryIterator::getBSAFilesFromINIs`
(BethesdaDirectoryIterator.cpp lines 184-219).  The merged INI property
tree is the external observation `ini`, mapping an `[Archive]` field
name to its value when the field is present (`pt_ini.get` throws on a
missing field, which the code catches and skips).  Each present value is
split on commas, each token trimmed and appended in order. -/
def getBSAFilesFromINIs (ini : Str → Option Str) (iniBsaFields : List Str) : List Str :=
  iniBsaFields.foldl
    (fun acc field =>
      match ini field with
      | none => acc
      | some curVal => acc ++ (splitComma curVal).map trimStr)
    []

/-- Modelled from the spec: `ParallaxGenUtil::concatenateVectorsWithoutDuplicates`
lives in ParallaxGenUtil, which is not among the provided sources; per
the spec, newly found archives are appended "in discovery order,
skipping any archive name already present". -/
def concatenateVectorsWithoutDuplicates (a b : List Str) : List Str :=
  b.foldl (fun acc x => if x ∈ acc then acc else acc ++ [x]) a

/-- Model of `BethesdaDirectoryIterator::getBSAPriorityList`
(BethesdaDirectoryIterator.cpp lines 114-147): seed with the INI
archives, read the plugin load order with extensions trimmed, and for
each plugin append its matching archives without duplicates.  The final
loop only logs archives loaded by no plugin. -/
def getBSAPriorityList (ini : Str → Option Str) (iniBsaFields : List Str)
    (loLines : List Str) (allBsaFiles : List Str) : List Str :=
  (getPluginLoadOrder true loLines).foldl
    (fun acc plugin =>
      concatenateVectorsWithoutDuplicates acc (findBSAFilesFromPluginName allBsaFiles plugin))
    (getBSAFilesFromINIs ini iniBsaFields)

/-- ASCII `tolower` of the classic locale, used by `boost::iequals`. -/
def lowerC (c : Char) : Char :=
  if 'A' ≤ c ∧ c ≤ 'Z' then Char.ofNat (c.toNat + 32) else c

/-- Model of `boost::iequals`: case-insensitive string equality. -/
def iequalsC (a b : Str) : Bool :=
  a.map lowerC = b.map lowerC

/-- Observation of one `fs::directory_iterator` entry of the data
directory: its file name, its `extension().string()`, and whether it is
a regular file. -/
structure DirEntry where
  filename : Str
  ext : Str
  isReg : Bool
deriving DecidableEq

/-- Model of `BethesdaDirectoryIterator::getBSAFilesInDirectory`
(BethesdaDirectoryIterator.cpp lines 221-239): keep the file names of
the regular files whose extension equals ".bsa" case-insensitively. -/
def getBSAFilesInDirectory (entries : List DirEntry) : List Str :=
  entries.foldl
    (fun acc e =>
      if e.isReg then
        if iequalsC e.ext ((".bsa").toList) then acc ++ [e.filename] else acc
      else acc)
    []

/-!  The file map.  `fileMap` is a `std::map<fs::path, string>`; we model
it as an association list with exact-key overwrite (`std::map` insertion
order does not affect per-key contents). -/

/-- Lookup of the first binding of key `k`. -/
def assocLookup (m : List (Str × Str)) (k : Str) : Option Str :=
  match m with
  | [] => none
  | (k2, v) :: rest => if k2 = k then some v else assocLookup rest k

/-- Model of `fileMap[key] = value`: replace the binding of `key` if
present, otherwise add one. -/
def assocSet (m : List (Str × Str)) (k : Str) (v : Str) : List (Str × Str) :=
  match m with
  | [] => [(k, v)]
  | (k2, v2) :: rest => if k2 = k then (k2, v) :: rest else (k2, v2) :: assocSet rest k v

/-- Observation of one `fs::recursive_directory_iterator` entry of the
data directory: its path relative to the data directory, its
`extension().string()`, and whether it is a regular file. -/
structure LooseEntry where
  relPath : Str
  ext : Str
  isReg : Bool
deriving DecidableEq

/-- The loose-file origin string. -/
def looseOrigin : Str := ("LOOSE_FILES").toList

/-- The loop body of `BethesdaDirectoryIterator::addLooseFilesToMap`
(BethesdaDirectoryIterator.cpp lines 58-83): a regular file whose
extension is none of ".bsa", ".esp", ".esl", ".esm" (exact,
case-sensitive comparisons) is entered with origin "LOOSE_FILES". -/
def looseStep (m : List (Str × Str)) (e : LooseEntry) : List (Str × Str) :=
  if e.isReg then
    if e.ext = (".bsa").toList then m
    else if e.ext = (".esp").toList then m
    else if e.ext = (".esl").toList then m
    else if e.ext = (".esm").toList then m
    else assocSet m e.relPath looseOrigin
  else m

/-- A regular file that none of the four extension checks of
`addLooseFilesToMap` skips. -/
def isLooseCandidate (e : LooseEntry) : Bool :=
  e.isReg && !(e.ext = (".bsa").toList) && !(e.ext = (".esp").toList)
    && !(e.ext = (".esl").toList) && !(e.ext = (".esm").toList)

/-- Model of `BethesdaDirectoryIterator::addLooseFilesToMap`. -/
def addLooseFilesToMap (fm : List (Str × Str)) (entries : List LooseEntry) : List (Str × Str) :=
  entries.foldl looseStep fm

/-- Model of `BethesdaDirectoryIterator::addBSAToFileMap`
(BethesdaDirectoryIterator.cpp lines 85-112): every virtual path
enumerated from the archive (folder name joined with entry name) is
mapped to the archive's name. -/
def addBSAToFileMap (fm : List (Str × Str)) (bsaName : Str) (paths : List Str) :
    List (Str × Str) :=
  paths.foldl (fun m p => assocSet m p bsaName) fm

/-- One archive of the priority list together with the observations of
the filesystem and of the external `bsa::tes4::archive` decoder: whether
`fs::exists(data_dir / name)` holds, and the virtual paths the decoder
enumerates. -/
structure ArchiveFile where
  name : Str
  onDisk : Bool
  entries : List Str
deriving DecidableEq

/-- The loop body of the archive pass of
`BethesdaDirectoryIterator::populateFileMap`
(BethesdaDirectoryIterator.cpp lines 38-52): a missing archive is
skipped with a warning. -/
def archiveStep (m : List (Str × Str)) (a : ArchiveFile) : List (Str × Str) :=
  if a.onDisk then addBSAToFileMap m a.name a.entries else m

/-- The archive pass of `BethesdaDirectoryIterator::populateFileMap`:
archives in priority order. -/
def buildArchiveMap (archives : List ArchiveFile) : List (Str × Str) :=
  archives.foldl archiveStep []

/-- Model of `BethesdaDirectoryIterator::populateFileMap`
(BethesdaDirectoryIterator.cpp lines 33-56): the archive pass in
priority order, then the loose-file pass. -/
def populateFileMap (archives : List ArchiveFile) (loose : List LooseEntry) :
    List (Str × Str) :=
  addLooseFilesToMap (buildArchiveMap archives) loose

/-- Model of the loop body of
`ParallaxGenDirectory::findComplexMaterialMaps`
(ParallaxGenDirectory.cpp lines 32-70) over the suffix-filtered
candidates `envMaps`.  `getFileB` are the bytes `getFile` returns,
`loadFromDDSMemory` is the external DirectXTex decoder
(`none` models a failed `HRESULT`), and `isAlphaAllOpaque` its opacity
query.  A candidate that fails to decode is skipped with a warning; a
decoded candidate is kept exactly when its alpha channel is not all
opaque. -/
def findComplexMaterialMaps {Bytes Img : Type}
    (getFileB : Str → Bytes) (loadFromDDSMemory : Bytes → Option Img)
    (isAlphaAllOpaque : Img → Bool) (envMaps : List Str) : List Str :=
  envMaps.foldl
    (fun acc envMap =>
      match loadFromDDSMemory (getFileB envMap) with
      | none => acc
      | some image => if isAlphaAllOpaque image then acc else acc ++ [envMap])
    []

/-!  Model of `nlohmann::json` values and of
`ParallaxGenDirectory::merge_json_smart`.  Objects are association
lists; `std::map` keeps keys unique and sorted, which only affects key
iteration order, not per-key contents. -/

/-- A JSON value. -/
inductive Json where
  | null : Json
  | jbool : Bool → Json
  | num : Int → Json
  | str : Str → Json
  | arr : List Json → Json
  | obj : List (Str × Json) → Json

mutual

/-- Structural equality test on JSON values, modelling `operator==`. -/
def Json.beq : Json → Json → Bool
  | .null, .null => true
  | .jbool a, .jbool b => a = b
  | .num a, .num b => a = b
  | .str a, .str b => a = b
  | .arr a, .arr b => Json.beqList a b
  | .obj a, .obj b => Json.beqKVs a b
  | _, _ => false

def Json.beqList : List Json → List Json → Bool
  | [], [] => true
  | a :: as, b :: bs => Json.beq a b && Json.beqList as bs
  | _, _ => false

def Json.beqKVs : List (Str × Json) → List (Str × Json) → Bool
  | [], [] => true
  | (k1, v1) :: as, (k2, v2) :: bs => k1 = k2 && Json.beq v1 v2 && Json.beqKVs as bs
  | _, _ => false

end

/-- First binding of key `k` in an object's member list. -/
def lookupJ : List (Str × Json) → Str → Option Json
  | [], _ => none
  | (k2, v) :: rest, k => if k2 = k then some v else lookupJ rest k

/-- Replace the binding of `k` if present, otherwise add one:
the effect of `target[key] = value` on an object's members. -/
def setJ : List (Str × Json) → Str → Json → List (Str × Json)
  | [], k, v => [(k, v)]
  | (k2, v2) :: rest, k, v =>
    if k2 = k then (k2, v) :: rest else (k2, v2) :: setJ rest k v

/-- Model of `json::contains(key)`: false on every non-object value. -/
def containsKeyJ (t : Json) (k : Str) : Bool :=
  match t with
  | .obj kvs => (lookupJ kvs k).isSome
  | _ => false

/-- Model of the write `target[key] = value`: `operator[]` turns a null
target into an object and throws `type_error.305` on any other
non-object target. -/
def objSetJ (t : Json) (k : Str) (v : Json) : Except Unit Json :=
  match t with
  | .null => .ok (.obj [(k, v)])
  | .obj kvs => .ok (.obj (setJ kvs k v))
  | _ => .error ()

/-- The value `target[key]` reads after `containsKeyJ` or `objSetJ`
ensured the key exists (never reached otherwise). -/
def getKeyD (t : Json) (k : Str) : Json :=
  match t with
  | .obj kvs => (lookupJ kvs k).getD .null
  | _ => .null

/-- The elements `begin()`/`end()` iteration yields on a `json` value:
array elements, object member values, nothing for null, the value
itself for a scalar. -/
def jsonElems : Json → List Json
  | .arr xs => xs
  | .obj kvs => kvs.map Prod.snd
  | .null => []
  | c => [c]

/-- Model of `find(target[key].begin(), target[key].end(), item) != end`:
some iterated element equals `item`. -/
def jsonFindElem (c : Json) (item : Json) : Bool :=
  (jsonElems c).any (fun e => Json.beq e item)

/-- Model of `json::push_back`: a null value becomes a one-element
array, an array is extended, anything else throws `type_error.308`. -/
def jsonPushBack (c item : Json) : Except Unit Json :=
  match c with
  | .null => .ok (.arr [item])
  | .arr xs => .ok (.arr (xs ++ [item]))
  | _ => .error ()

/-- The sequence branch of `merge_json_smart`: append each source item
not already equal to some element of the evolving `target[key]`. -/
def mergeArrayInto (cur : Json) (items : List Json) : Except Unit Json :=
  items.foldlM
    (fun c item => if jsonFindElem c item then pure c else jsonPushBack c item)
    cur

/-- Model of `ParallaxGenDirectory::merge_json_smart`
(ParallaxGenDirectory.cpp lines 231-252), iterating over the member
list of the source object (`source.items()`; the recursion only ever
passes object sources).  An object source value recurses into
`target[key]` after defaulting a missing key to an empty object; an
array source value appends its new elements onto `target[key]` after
defaulting a missing key to an empty array; any other source value is
assigned over `target[key]`. -/
def mergeJsonSmart : Json → List (Str × Json) → Except Unit Json
  | target, [] => .ok target
  | target, (k, .obj kvs) :: rest => do
    let t1 ← if containsKeyJ target k then pure target else objSetJ target k (.obj [])
    let r ← mergeJsonSmart (getKeyD t1 k) kvs
    let t2 ← objSetJ t1 k r
    mergeJsonSmart t2 rest
  | target, (k, .arr items) :: rest => do
    let t1 ← if containsKeyJ target k then pure target else objSetJ target k (.arr [])
    let r ← mergeArrayInto (getKeyD t1 k) items
    let t2 ← objSetJ t1 k r
    mergeJsonSmart t2 rest
  | target, (k, v) :: rest => do
    let t1 ← objSetJ target k v
    mergeJsonSmart t1 rest

/-- A JSON value that is neither a mapping nor a sequence: the values
the final `else` branch of `merge_json_smart` assigns directly. -/
def isScalarJ : Json → Bool
  | .obj _ => false
  | .arr _ => false
  | _ => true

/-- The sequence-merge result in closed form: the target sequence
followed by each source element that is not already equal to an element
of the evolving sequence (an order-preserving de-duplicated union). -/
def dedupAppend (t items : List Json) : List Json :=
  items.foldl
    (fun acc x => if acc.any (fun e => Json.beq e x) then acc else acc ++ [x])
    t

/-- Key-uniqueness of an object member list. -/
def keysNodupJ : List (Str × Json) → Bool
  | [] => true
  | (k, _) :: rest => !(rest.any (fun p => p.1 = k)) && keysNodupJ rest

mutual

/-- Well-formedness of a JSON value: object member lists have unique
keys throughout, as `std::map`-backed `nlohmann::json` objects do. -/
def Json.wf : Json → Bool
  | .null => true
  | .jbool _ => true
  | .num _ => true
  | .str _ => true
  | .arr xs => Json.wfList xs
  | .obj kvs => keysNodupJ kvs && Json.wfKVs kvs

def Json.wfList : List Json → Bool
  | [] => true
  | x :: xs => x.wf && Json.wfList xs

def Json.wfKVs : List (Str × Json) → Bool
  | [] => true
  | (_, v) :: rest => v.wf && Json.wfKVs rest

end



/-!  Theorems.  First, lemmas about the association-list file map. -/

theorem assocLookup_set_self (m : List (Str × Str)) (k v : Str) :
    assocLookup (assocSet m k v) k = some v := by
  induction m with
  | nil => simp [assocSet, assocLookup]
  | cons p rest ih =>
    obtain ⟨k2, v2⟩ := p
    by_cases h : k2 = k
    · simp [assocSet, assocLookup, h]
    · simp [assocSet, assocLookup, h, ih]

theorem assocLookup_set_ne (m : List (Str × Str)) (k k2 v : Str) (h : k2 ≠ k) :
    assocLookup (assocSet m k v) k2 = assocLookup m k2 := by
  induction m with
  | nil => simp [assocSet, assocLookup, Ne.symm h]
  | cons p rest ih =>
    obtain ⟨k3, v3⟩ := p
    simp only [assocSet]
    by_cases h1 : k3 = k
    · rw [if_pos h1]
      simp [assocLookup, h1, Ne.symm h]
    · rw [if_neg h1]
      simp [assocLookup, ih]

theorem looseStep_eq (m : List (Str × Str)) (e : LooseEntry) :
    looseStep m e =
      if isLooseCandidate e then assocSet m e.relPath looseOrigin else m := by
  unfold looseStep isLooseCandidate
  split_ifs <;> simp_all

theorem addLoose_cons (m : List (Str × Str)) (e : LooseEntry) (rest : List LooseEntry) :
    addLooseFilesToMap m (e :: rest) = addLooseFilesToMap (looseStep m e) rest := rfl

theorem addLoose_keeps (entries : List LooseEntry) :
    ∀ (m : List (Str × Str)) (p : Str), assocLookup m p = some looseOrigin →
      assocLookup (addLooseFilesToMap m entries) p = some looseOrigin := by
  induction entries with
  | nil => intro m p h; simpa [addLooseFilesToMap] using h
  | cons e rest ih =>
    intro m p h
    rw [addLoose_cons]
    apply ih
    rw [looseStep_eq]
    by_cases hc : isLooseCandidate e
    · rw [if_pos hc]
      by_cases hp : e.relPath = p
      · rw [hp]; exact assocLookup_set_self ..
      · rw [assocLookup_set_ne _ _ _ _ (fun hh => hp hh.symm)]; exact h
    · rw [if_neg hc]; exact h

theorem addLoose_wins (entries : List LooseEntry) :
    ∀ (m : List (Str × Str)) (e : LooseEntry), e ∈ entries →
      isLooseCandidate e = true →
      assocLookup (addLooseFilesToMap m entries) e.relPath = some looseOrigin := by
  induction entries with
  | nil => intro m e h _; exact absurd h (List.not_mem_nil e)
  | cons e2 rest ih =>
    intro m e hmem hc
    rcases List.mem_cons.mp hmem with h | h
    · subst h
      simp only [addLooseFilesToMap, List.foldl_cons]
      apply addLoose_keeps
      rw [looseStep_eq, hc, if_pos rfl]
      exact assocLookup_set_self ..
    · rw [addLoose_cons]
      exact ih _ e h hc

theorem addLoose_preserve (entries : List LooseEntry) :
    ∀ (m : List (Str × Str)) (p : Str),
      (∀ e ∈ entries, isLooseCandidate e = true → e.relPath ≠ p) →
      assocLookup (addLooseFilesToMap m entries) p = assocLookup m p := by
  induction entries with
  | nil => intro m p _; simp [addLooseFilesToMap]
  | cons e rest ih =>
    intro m p h
    rw [addLoose_cons]
    rw [ih _ p (fun e2 he2 => h e2 (List.mem_cons_of_mem _ he2)), looseStep_eq]
    by_cases hc : isLooseCandidate e
    · rw [if_pos hc]
      exact assocLookup_set_ne _ _ _ _ (fun hh =>
        h e (List.mem_cons_self ..) hc hh.symm)
    · rw [if_neg hc]

theorem addBSA_cons (m : List (Str × Str)) (name p : Str) (rest : List Str) :
    addBSAToFileMap m name (p :: rest) = addBSAToFileMap (assocSet m p name) name rest := rfl

theorem addBSA_preserve (paths : List Str) :
    ∀ (m : List (Str × Str)) (name p : Str), p ∉ paths →
      assocLookup (addBSAToFileMap m name paths) p = assocLookup m p := by
  induction paths with
  | nil => intro m name p _; rfl
  | cons q rest ih =>
    intro m name p hp
    rw [addBSA_cons, ih _ _ _ (fun hh => hp (List.mem_cons_of_mem _ hh))]
    exact assocLookup_set_ne _ _ _ _ (fun hh => hp (hh ▸ List.mem_cons_self ..))

theorem addBSA_keeps (paths : List Str) :
    ∀ (m : List (Str × Str)) (name p : Str), assocLookup m p = some name →
      assocLookup (addBSAToFileMap m name paths) p = some name := by
  induction paths with
  | nil => intro m name p h; exact h
  | cons q rest ih =>
    intro m name p h
    rw [addBSA_cons]
    apply ih
    by_cases hq : q = p
    · rw [hq]; exact assocLookup_set_self ..
    · rw [assocLookup_set_ne _ _ _ _ (Ne.symm hq)]; exact h

theorem addBSA_mem (paths : List Str) :
    ∀ (m : List (Str × Str)) (name p : Str), p ∈ paths →
      assocLookup (addBSAToFileMap m name paths) p = some name := by
  induction paths with
  | nil => intro m name p h; exact absurd h (List.not_mem_nil p)
  | cons q rest ih =>
    intro m name p hp
    rw [addBSA_cons]
    rcases List.mem_cons.mp hp with h | h
    · apply addBSA_keeps
      rw [h]
      exact assocLookup_set_self ..
    · exact ih _ _ _ h

theorem archives_preserve (archives : List ArchiveFile) :
    ∀ (m : List (Str × Str)) (p : Str),
      (∀ a ∈ archives, a.onDisk = true → p ∉ a.entries) →
      assocLookup (archives.foldl archiveStep m) p = assocLookup m p := by
  induction archives with
  | nil => intro m p _; rfl
  | cons a rest ih =>
    intro m p h
    rw [List.foldl_cons, ih _ p (fun a2 ha2 => h a2 (List.mem_cons_of_mem _ ha2))]
    unfold archiveStep
    cases hd : a.onDisk
    · simp
    · simp only [if_pos rfl]
      exact addBSA_preserve _ _ _ _ (h a (List.mem_cons_self ..) hd)

/-- C1: a virtual path contributed both by an archive processed during
`populateFileMap` and by a regular loose file under the data directory
whose extension is none of ".bsa", ".esp", ".esl", ".esm" ends up mapped
to the loose-override origin "LOOSE_FILES", whatever the archive and the
archive order. -/
theorem c1_loose_always_wins (archives : List ArchiveFile) (loose : List LooseEntry)
    (p : Str) (a : ArchiveFile) (e : LooseEntry)
    (ha : a ∈ archives) (hd : a.onDisk = true) (hp : p ∈ a.entries)
    (he : e ∈ loose) (hc : isLooseCandidate e = true) (hrel : e.relPath = p) :
    assocLookup (populateFileMap archives loose) p = some looseOrigin := by
  rw [← hrel]
  exact addLoose_wins loose (buildArchiveMap archives) e he hc

/-- Witness for `c1_loose_always_wins` at a concrete input: one archive
on disk contributing "t.dds" and one loose "t.dds" with extension
".dds". -/
theorem c1_loose_always_wins_witness :
    assocLookup
      (populateFileMap [⟨("a.bsa").toList, true, [("t.dds").toList]⟩]
        [⟨("t.dds").toList, (".dds").toList, true⟩])
      (("t.dds").toList) = some looseOrigin :=
  c1_loose_always_wins _ _ _ ⟨("a.bsa").toList, true, [("t.dds").toList]⟩
    ⟨("t.dds").toList, (".dds").toList, true⟩
    (by decide) (by decide) (by decide) (by decide) (by decide) (by decide)

/-- C2 counterexample: with three archives "a.bsa", "b.bsa", "c.bsa" in
the priority list, all on disk and all containing "p.dds" (and no loose
file), the pair (A, B) = ("a.bsa", "b.bsa") satisfies the claim's
hypotheses — B later than A, both contain the path, the path not
loose — yet the recorded origin is "c.bsa", not B. -/
theorem c2_pair_counterexample :
    assocLookup
      (populateFileMap
        [⟨("a.bsa").toList, true, [("p.dds").toList]⟩,
          ⟨("b.bsa").toList, true, [("p.dds").toList]⟩,
          ⟨("c.bsa").toList, true, [("p.dds").toList]⟩] [])
      (("p.dds").toList) = some (("c.bsa").toList)
    ∧ (("c.bsa").toList : Str) ≠ ("b.bsa").toList := by
  exact ⟨by decide, by decide⟩

/-- C2 amended: for a pair (A, B) of archives with B later than A in the
priority list and a path `p` contained in both, the origin recorded by
`populateFileMap` for `p` is B, provided B exists on disk, no archive
after B that exists on disk also contains `p`, and `p` is not supplied
by a qualifying loose file. -/
theorem c2_later_archive_wins (pre post : List ArchiveFile) (a b : ArchiveFile)
    (loose : List LooseEntry) (p : Str)
    (ha : a ∈ pre) (hpa : p ∈ a.entries)
    (hb : b.onDisk = true) (hpb : p ∈ b.entries)
    (hpost : ∀ c ∈ post, c.onDisk = true → p ∉ c.entries)
    (hloose : ∀ e ∈ loose, isLooseCandidate e = true → e.relPath ≠ p) :
    assocLookup (populateFileMap (pre ++ b :: post) loose) p = some b.name := by
  unfold populateFileMap buildArchiveMap
  rw [addLoose_preserve _ _ _ hloose, List.foldl_append, List.foldl_cons,
    archives_preserve _ _ _ hpost]
  unfold archiveStep
  rw [if_pos hb]
  exact addBSA_mem _ _ _ _ hpb

/-- Witness for `c2_later_archive_wins`: archives ["a.bsa", "b.bsa"],
both on disk and both containing "p.dds", no loose files; the origin is
"b.bsa". -/
theorem c2_later_archive_wins_witness :
    assocLookup
      (populateFileMap
        [⟨("a.bsa").toList, true, [("p.dds").toList]⟩,
          ⟨("b.bsa").toList, true, [("p.dds").toList]⟩] [])
      (("p.dds").toList)
      = some ((ArchiveFile.mk (("b.bsa").toList) true [("p.dds").toList]).name) :=
  c2_later_archive_wins [⟨("a.bsa").toList, true, [("p.dds").toList]⟩] []
    ⟨("a.bsa").toList, true, [("p.dds").toList]⟩
    ⟨("b.bsa").toList, true, [("p.dds").toList]⟩ [] (("p.dds").toList)
    (by decide) (by decide) (by decide) (by decide)
    (by intro c hc; exact absurd hc (List.not_mem_nil c))
    (by intro e he; exact absurd he (List.not_mem_nil e))

/-- C8: a priority-list archive that is missing on disk contributes no
file-map entries and does not abort the build: the resulting map equals
the one built from only the archives that exist, plus the loose files. -/
theorem c8_missing_archives_skipped (archives : List ArchiveFile) (loose : List LooseEntry) :
    populateFileMap archives loose
      = populateFileMap (archives.filter (fun a => a.onDisk)) loose := by
  unfold populateFileMap buildArchiveMap
  congr 1
  have key : ∀ (l : List ArchiveFile) (m : List (Str × Str)),
      l.foldl archiveStep m = (l.filter (fun a => a.onDisk)).foldl archiveStep m := by
    intro l
    induction l with
    | nil => intro m; rfl
    | cons a rest ih =>
      intro m
      cases hd : a.onDisk
      · rw [List.foldl_cons, List.filter_cons]
        simp only [hd, Bool.false_eq_true, if_false]
        rw [ih]
        congr 1
        unfold archiveStep
        rw [hd]
        simp
      · rw [List.foldl_cons, List.filter_cons]
        simp only [hd, if_true]
        rw [List.foldl_cons, ih]
  exact key archives []

/-- C10: the loose-file pass compares extensions case-sensitively, so a
regular file with extension ".BSA" is not skipped and is entered with
the loose-override origin, while the archive enumeration of
`getBSAFilesInDirectory` matches the same extension case-insensitively
(shown both in general via `iequalsC` and on a concrete directory). -/
theorem c10_case_sensitive_loose_pass :
    (∀ (m : List (Str × Str)) (entries : List LooseEntry) (e : LooseEntry),
        e ∈ entries → e.isReg = true → e.ext = (".BSA").toList →
        assocLookup (addLooseFilesToMap m entries) e.relPath = some looseOrigin)
    ∧ iequalsC ((".BSA").toList) ((".bsa").toList) = true
    ∧ getBSAFilesInDirectory [⟨("foo.BSA").toList, (".BSA").toList, true⟩]
        = [("foo.BSA").toList] := by
  refine ⟨?_, by decide, by decide⟩
  intro m entries e hmem hreg hext
  apply addLoose_wins entries m e hmem
  rw [isLooseCandidate, hreg, hext]
  decide

/-- Witness for `c10_case_sensitive_loose_pass`: a single regular file
"t.BSA" with extension ".BSA" gets the loose-override origin. -/
theorem c10_case_sensitive_loose_pass_witness :
    assocLookup
      (addLooseFilesToMap [] [⟨("t.BSA").toList, (".BSA").toList, true⟩])
      (("t.BSA").toList) = some looseOrigin :=
  c10_case_sensitive_loose_pass.1 [] [⟨("t.BSA").toList, (".BSA").toList, true⟩]
    ⟨("t.BSA").toList, (".BSA").toList, true⟩ (by decide) (by decide) (by decide)


theorem startsWithS_append (p s : Str) : startsWithS (p ++ s) p = true := by
  induction p with
  | nil => cases s <;> rfl
  | cons c ps ih => simp [startsWithS, ih]

theorem startsWithS_spaceHyphen_space (r : Str)
    (h : startsWithS r ([' ', '-']) = true) : startsWithS r ([' ']) = true := by
  cases r with
  | nil => simp [startsWithS] at h
  | cons c cs =>
    simp only [startsWithS, Bool.and_eq_true, decide_eq_true_eq] at h ⊢
    exact ⟨h.1, trivial⟩

theorem firstIsDigit_not_space (r : Str) (h1 : startsWithS r ([' ']) = true)
    (h2 : firstIsDigit r = true) : False := by
  cases r with
  | nil => simp [startsWithS] at h1
  | cons c cs =>
    simp only [startsWithS, Bool.and_eq_true, decide_eq_true_eq] at h1
    rcases h1 with ⟨hc, -⟩
    cases hc
    rw [show firstIsDigit (' ' :: cs) = (' ').isDigit from rfl] at h2
    exact absurd h2 (by decide)

theorem bsaStep_mem (plugin : Str) (acc : List Str) (bsa x : Str) :
    x ∈ bsaStep plugin acc bsa ↔ x ∈ acc ∨ (x = bsa ∧ acceptBSA plugin bsa = true) := by
  unfold bsaStep acceptBSA
  by_cases hs : startsWithS bsa plugin = true
  · rw [if_pos hs]
    by_cases he : bsa = plugin ++ bsaExt
    · simp [he, hs, startsWithS_append, List.mem_cons, or_comm]
    · rw [if_neg he]
      by_cases h1 : startsWithS (bsa.drop plugin.length) ([' ']) = true
      · by_cases h2 : startsWithS (bsa.drop plugin.length) ([' ', '-']) = true
        · simp [h1, h2, hs, he, List.mem_append, or_comm]
        · have hd : firstIsDigit (bsa.drop plugin.length) = false := by
            cases hb : firstIsDigit (bsa.drop plugin.length)
            · rfl
            · exact absurd (firstIsDigit_not_space _ h1 hb) not_false
          simp [h1, h2, hd, hs, he]
      · by_cases hd : firstIsDigit (bsa.drop plugin.length) = true
        · simp [h1, hd, hs, he, List.mem_append, or_comm]
        · have h2 : startsWithS (bsa.drop plugin.length) ([' ', '-']) = false := by
            cases hb : startsWithS (bsa.drop plugin.length) ([' ', '-'])
            · rfl
            · exact absurd (startsWithS_spaceHyphen_space _ hb) h1
          simp [h1, hd, h2, hs, he]
  · simp [hs]

theorem findBSA_foldl_mem (plugin : Str) (l : List Str) :
    ∀ (acc : List Str) (x : Str),
      x ∈ l.foldl (bsaStep plugin) acc ↔
        x ∈ acc ∨ (x ∈ l ∧ acceptBSA plugin x = true) := by
  induction l with
  | nil => intro acc x; simp
  | cons bsa rest ih =>
    intro acc x
    rw [List.foldl_cons, ih, bsaStep_mem]
    constructor
    · rintro ((h | ⟨rfl, hacc⟩) | ⟨hmem, hacc⟩)
      · exact Or.inl h
      · exact Or.inr ⟨List.mem_cons_self .., hacc⟩
      · exact Or.inr ⟨List.mem_cons_of_mem _ hmem, hacc⟩
    · rintro (h | ⟨hmem, hacc⟩)
      · exact Or.inl (Or.inl h)
      · rcases List.mem_cons.mp hmem with rfl | h2
        · exact Or.inl (Or.inr ⟨rfl, hacc⟩)
        · exact Or.inr ⟨h2, hacc⟩

theorem bsaStep_shape (plugin : Str) (acc : List Str) (bsa : Str)
    (hne : bsa ≠ plugin ++ bsaExt) :
    bsaStep plugin acc bsa = acc ∨ bsaStep plugin acc bsa = acc ++ [bsa] := by
  unfold bsaStep
  by_cases hs : startsWithS bsa plugin = true
  · rw [if_pos hs, if_neg hne]
    dsimp only
    split_ifs <;> first | exact Or.inl rfl | exact Or.inr rfl
  · rw [if_neg hs]
    exact Or.inl rfl

theorem findBSA_foldl_head_preserve (plugin : Str) (l : List Str) :
    ∀ acc : List Str, (plugin ++ bsaExt) ∉ l → acc ≠ [] →
      (l.foldl (bsaStep plugin) acc).head? = acc.head? := by
  induction l with
  | nil => intro acc _ _; rfl
  | cons bsa rest ih =>
    intro acc hnot hne
    have hbsa : bsa ≠ plugin ++ bsaExt := by
      intro hh
      exact hnot (by rw [← hh]; exact List.mem_cons_self ..)
    have hrest : (plugin ++ bsaExt) ∉ rest :=
      fun hh => hnot (List.mem_cons_of_mem _ hh)
    rcases bsaStep_shape plugin acc bsa hbsa with h | h
    · rw [List.foldl_cons, h]
      exact ih acc hrest hne
    · rw [List.foldl_cons, h, ih _ hrest (by simp)]
      cases acc with
      | nil => exact absurd rfl hne
      | cons y ys => rfl

theorem findBSA_head_exact (plugin : Str) (l : List Str) :
    ∀ acc : List Str, (plugin ++ bsaExt) ∈ l →
      (l.foldl (bsaStep plugin) acc).head? = some (plugin ++ bsaExt) := by
  induction l with
  | nil => intro acc h; exact absurd h (List.not_mem_nil _)
  | cons bsa rest ih =>
    intro acc hmem
    rw [List.foldl_cons]
    by_cases he : bsa = plugin ++ bsaExt
    · have hstep : bsaStep plugin acc bsa = bsa :: acc := by
        unfold bsaStep
        rw [if_pos (by rw [he]; exact startsWithS_append ..), if_pos he]
      rw [hstep]
      by_cases hr : (plugin ++ bsaExt) ∈ rest
      · exact ih _ hr
      · rw [findBSA_foldl_head_preserve plugin rest (bsa :: acc) hr (by simp), he]
        rfl
    · have hrest : (plugin ++ bsaExt) ∈ rest := by
        rcases List.mem_cons.mp hmem with h | h
        · exact absurd h.symm he
        · exact h
      rcases bsaStep_shape plugin acc bsa he with h | h <;> rw [h] <;> exact ih _ hrest

/-- C3: `findBSAFilesFromPluginName` returns exactly the archive names
that start with the plugin name and either equal `plugin + ".bsa"`
(placed first in the returned list) or continue, right after the shared
plugin name, with a digit or with a space followed by a hyphen;
remainders starting with a space not followed by a hyphen, or with any
other non-digit non-space character, are excluded.  For plugin "3DNPC"
the four sample names resolve to exactly the first three with
"3DNPC.bsa" first and "3DNPCX.bsa" rejected. -/
theorem c3_findBSAFilesFromPluginName (files : List Str) (plugin : Str) :
    (∀ b, b ∈ findBSAFilesFromPluginName files plugin ↔
        b ∈ files ∧ acceptBSA plugin b = true)
    ∧ ((plugin ++ bsaExt) ∈ files →
        (findBSAFilesFromPluginName files plugin).head? = some (plugin ++ bsaExt))
    ∧ findBSAFilesFromPluginName
        [("3DNPC.bsa").toList, ("3DNPC0.bsa").toList,
          ("3DNPC - Textures.bsa").toList, ("3DNPCX.bsa").toList] (("3DNPC").toList)
      = [("3DNPC.bsa").toList, ("3DNPC0.bsa").toList,
          ("3DNPC - Textures.bsa").toList] := by
  refine ⟨?_, ?_, by decide⟩
  · intro b
    unfold findBSAFilesFromPluginName
    rw [findBSA_foldl_mem]
    simp
  · intro hmem
    exact findBSA_head_exact plugin files [] hmem

/-- Witness for `c3_findBSAFilesFromPluginName`: on the concrete sample
input, the exact-name archive "3DNPC.bsa" is ordered first. -/
theorem c3_findBSAFilesFromPluginName_witness :
    (findBSAFilesFromPluginName
      [("3DNPC.bsa").toList, ("3DNPC0.bsa").toList,
        ("3DNPC - Textures.bsa").toList, ("3DNPCX.bsa").toList]
      (("3DNPC").toList)).head? = some ((("3DNPC").toList) ++ bsaExt) :=
  (c3_findBSAFilesFromPluginName
    [("3DNPC.bsa").toList, ("3DNPC0.bsa").toList,
      ("3DNPC - Textures.bsa").toList, ("3DNPCX.bsa").toList]
    (("3DNPC").toList)).2.1 (by decide)

theorem pluginFold_eq (trimE : Bool) (l : List Str) : ∀ acc : List Str,
    l.foldl
      (fun acc line =>
        if line = [] ∨ line.headI = '#' then acc
        else acc ++ [if trimE then trimExtensionAtLastDot line else line]) acc
    = acc ++ (l.filter keepsPluginLine).map
        (fun line => if trimE then trimExtensionAtLastDot line else line) := by
  induction l with
  | nil => intro acc; simp
  | cons line rest ih =>
    intro acc
    rw [List.foldl_cons]
    by_cases h : line = [] ∨ line.headI = '#'
    · rw [if_pos h, ih, List.filter_cons]
      have hk : keepsPluginLine line = false := by
        rcases h with h | h
        · simp [keepsPluginLine, h]
        · simp [keepsPluginLine, h]
      rw [hk]
      simp
    · rw [if_neg h, ih, List.filter_cons]
      push_neg at h
      have hk : keepsPluginLine line = true := by
        simp [keepsPluginLine, h.1, h.2]
      rw [hk]
      simp

/-- C6: `getPluginLoadOrder` returns, in input order and without
deduplication, exactly the lines that are non-empty and do not begin
with `'#'`, each truncated at its last `'.'` when the trim flag is set
and verbatim otherwise. -/
theorem c6_getPluginLoadOrder (trimE : Bool) (lines : List Str) :
    getPluginLoadOrder trimE lines
      = (lines.filter keepsPluginLine).map
          (fun line => if trimE then trimExtensionAtLastDot line else line) := by
  unfold getPluginLoadOrder
  simpa using pluginFold_eq trimE lines []

theorem iniFold_eq (ini : Str → Option Str) (fields : List Str) : ∀ acc : List Str,
    fields.foldl
      (fun acc field =>
        match ini field with
        | none => acc
        | some curVal => acc ++ (splitComma curVal).map trimStr) acc
    = acc ++ (fields.map (fun field =>
        match ini field with
        | none => ([] : List Str)
        | some curVal => (splitComma curVal).map trimStr)).flatten := by
  induction fields with
  | nil => intro acc; simp
  | cons f rest ih =>
    intro acc
    rw [List.foldl_cons]
    cases hf : ini f
    · simp only [hf, ih, List.map_cons, List.flatten_cons, List.nil_append]
    · simp only [hf, ih, List.map_cons, List.flatten_cons, List.append_assoc]

/-- C7: `getBSAFilesFromINIs` splits each present "Archive"-section
field value on commas, trims each token, and concatenates tokens across
fields in field order; a missing field contributes nothing and is never
an error.  For a single field valued
"Skyrim - Textures.bsa, Skyrim - Meshes.bsa" and an empty plugin load
order, the resolved priority list is exactly these two names in order. -/
theorem c7_getBSAFilesFromINIs :
    (∀ (ini : Str → Option Str) (fields : List Str),
        getBSAFilesFromINIs ini fields
          = (fields.map (fun field =>
              match ini field with
              | none => ([] : List Str)
              | some curVal => (splitComma curVal).map trimStr)).flatten)
    ∧ (∀ (ini : Str → Option Str) (fields1 fields2 : List Str) (f : Str),
        ini f = none →
        getBSAFilesFromINIs ini (fields1 ++ f :: fields2)
          = getBSAFilesFromINIs ini (fields1 ++ fields2))
    ∧ getBSAPriorityList
        (fun f => if f = ("sResourceArchiveList").toList
          then some (("Skyrim - Textures.bsa, Skyrim - Meshes.bsa").toList)
          else none)
        [("sResourceArchiveList").toList] [] []
      = [("Skyrim - Textures.bsa").toList, ("Skyrim - Meshes.bsa").toList] := by
  refine ⟨?_, ?_, by decide⟩
  · intro ini fields
    unfold getBSAFilesFromINIs
    simpa using iniFold_eq ini fields []
  · intro ini fields1 fields2 f hf
    unfold getBSAFilesFromINIs
    rw [iniFold_eq, iniFold_eq]
    simp [hf]

/-- Witness for `c7_getBSAFilesFromINIs`: dropping a field that is
absent from the INI ("sTestArchiveList" here) leaves the output
unchanged, checked at a concrete INI observation. -/
theorem c7_getBSAFilesFromINIs_witness :
    getBSAFilesFromINIs
      (fun f => if f = ("sResourceArchiveList").toList
        then some (("a.bsa").toList) else none)
      ([("sResourceArchiveList").toList] ++ ("sTestArchiveList").toList
        :: [("sResourceArchiveList").toList])
    = getBSAFilesFromINIs
      (fun f => if f = ("sResourceArchiveList").toList
        then some (("a.bsa").toList) else none)
      ([("sResourceArchiveList").toList] ++ [("sResourceArchiveList").toList]) :=
  c7_getBSAFilesFromINIs.2.1
    (fun f => if f = ("sResourceArchiveList").toList
      then some (("a.bsa").toList) else none)
    [("sResourceArchiveList").toList] [("sResourceArchiveList").toList]
    (("sTestArchiveList").toList) (by decide)

theorem cmFold_eq {Bytes Img : Type} (getFileB : Str → Bytes)
    (loadFromDDSMemory : Bytes → Option Img) (isAlphaAllOpaque : Img → Bool)
    (l : List Str) : ∀ acc : List Str,
    l.foldl
      (fun acc envMap =>
        match loadFromDDSMemory (getFileB envMap) with
        | none => acc
        | some image => if isAlphaAllOpaque image then acc else acc ++ [envMap]) acc
    = acc ++ l.filter (fun envMap =>
        match loadFromDDSMemory (getFileB envMap) with
        | none => false
        | some image => !isAlphaAllOpaque image) := by
  induction l with
  | nil => intro acc; simp
  | cons p rest ih =>
    intro acc
    rw [List.foldl_cons, List.filter_cons]
    cases hdec : loadFromDDSMemory (getFileB p)
    · simp [hdec, ih]
    case some img =>
      cases hop : isAlphaAllOpaque img
      · simp [hdec, hop, ih]
      · simp [hdec, hop, ih]

/-- C9: a suffix-filtered candidate is appended to the complex-material
list exactly when its bytes decode as a DDS image whose alpha channel
is not uniformly opaque; a decode failure excludes only that candidate
and iteration continues (the result is the in-order filter of the
candidate list, never an aborted run). -/
theorem c9_findComplexMaterialMaps {Bytes Img : Type} (getFileB : Str → Bytes)
    (loadFromDDSMemory : Bytes → Option Img) (isAlphaAllOpaque : Img → Bool)
    (envMaps : List Str) :
    findComplexMaterialMaps getFileB loadFromDDSMemory isAlphaAllOpaque envMaps
      = envMaps.filter (fun envMap =>
          match loadFromDDSMemory (getFileB envMap) with
          | none => false
          | some image => !isAlphaAllOpaque image)
    ∧ ∀ p, p ∈ findComplexMaterialMaps getFileB loadFromDDSMemory isAlphaAllOpaque envMaps
        ↔ p ∈ envMaps ∧ ∃ image, loadFromDDSMemory (getFileB p) = some image
            ∧ isAlphaAllOpaque image = false := by
  have hmain :
      findComplexMaterialMaps getFileB loadFromDDSMemory isAlphaAllOpaque envMaps
        = envMaps.filter (fun envMap =>
            match loadFromDDSMemory (getFileB envMap) with
            | none => false
            | some image => !isAlphaAllOpaque image) := by
    unfold findComplexMaterialMaps
    simpa using cmFold_eq getFileB loadFromDDSMemory isAlphaAllOpaque envMaps []
  refine ⟨hmain, ?_⟩
  intro p
  rw [hmain, List.mem_filter]
  constructor
  · rintro ⟨hp, hpred⟩
    refine ⟨hp, ?_⟩
    cases hdec : loadFromDDSMemory (getFileB p) with
    | none => rw [hdec] at hpred; simp at hpred
    | some image =>
      rw [hdec] at hpred
      simp at hpred
      exact ⟨image, rfl, hpred⟩
  · rintro ⟨hp, image, hdec, hop⟩
    exact ⟨hp, by simp [hdec, hop]⟩

theorem beqList_iff_of (xs : List Json)
    (h : ∀ x ∈ xs, ∀ b, Json.beq x b = true ↔ x = b) :
    ∀ ys, Json.beqList xs ys = true ↔ xs = ys := by
  induction xs with
  | nil => intro ys; cases ys <;> simp [Json.beqList]
  | cons x xs ih =>
    intro ys
    cases ys with
    | nil => simp [Json.beqList]
    | cons y ys =>
      simp [Json.beqList, Bool.and_eq_true, h x (List.mem_cons_self ..),
        ih (fun z hz b => h z (List.mem_cons_of_mem _ hz) b)]

theorem beqKVs_iff_of (kvs : List (Str × Json))
    (h : ∀ p ∈ kvs, ∀ b, Json.beq p.2 b = true ↔ p.2 = b) :
    ∀ kvs2, Json.beqKVs kvs kvs2 = true ↔ kvs = kvs2 := by
  induction kvs with
  | nil => intro kvs2; cases kvs2 <;> simp [Json.beqKVs]
  | cons p rest ih =>
    intro kvs2
    obtain ⟨k, v⟩ := p
    cases kvs2 with
    | nil => simp [Json.beqKVs]
    | cons q rest2 =>
      obtain ⟨k2, v2⟩ := q
      simp [Json.beqKVs, Bool.and_eq_true,
        h (k, v) (List.mem_cons_self ..) v2,
        ih (fun z hz b => h z (List.mem_cons_of_mem _ hz) b), and_assoc]

theorem json_beq_iff_aux : ∀ (n : Nat) (a b : Json), sizeOf a ≤ n →
    (Json.beq a b = true ↔ a = b) := by
  intro n
  induction n with
  | zero => intro a b h; exfalso; cases a <;> simp_arith at h
  | succ n ih =>
    intro a b h
    cases a with
    | null => cases b <;> simp [Json.beq]
    | jbool x => cases b <;> simp [Json.beq]
    | num x => cases b <;> simp [Json.beq]
    | str s => cases b <;> simp [Json.beq]
    | arr xs =>
      cases b <;> simp [Json.beq]
      case arr ys =>
        apply beqList_iff_of
        intro x hx b2
        apply ih
        have h1 := List.sizeOf_lt_of_mem hx
        have h2 : sizeOf (Json.arr xs) = 1 + sizeOf xs := by simp
        omega
    | obj kvs =>
      cases b <;> simp [Json.beq]
      case obj kvs2 =>
        apply beqKVs_iff_of
        intro p hp b2
        apply ih
        have h1 := List.sizeOf_lt_of_mem hp
        obtain ⟨k, v⟩ := p
        have h2 : sizeOf (Json.obj kvs) = 1 + sizeOf kvs := by simp
        have h3 : sizeOf ((k, v) : Str × Json) = 1 + sizeOf k + sizeOf v := by simp
        simp only at h1 ⊢
        omega

theorem json_beq_iff (a b : Json) : Json.beq a b = true ↔ a = b :=
  json_beq_iff_aux (sizeOf a) a b le_rfl

theorem anyBeq_iff (xs : List Json) (x : Json) :
    (xs.any (fun e => Json.beq e x)) = true ↔ x ∈ xs := by
  rw [List.any_eq_true]
  constructor
  · rintro ⟨e, he, hb⟩
    rw [← (json_beq_iff e x).mp hb]
    exact he
  · intro hx
    exact ⟨x, hx, (json_beq_iff x x).mpr rfl⟩

theorem lookupJ_set_self (kvs : List (Str × Json)) (k : Str) (v : Json) :
    lookupJ (setJ kvs k v) k = some v := by
  induction kvs with
  | nil => simp [setJ, lookupJ]
  | cons p rest ih =>
    obtain ⟨k2, v2⟩ := p
    by_cases h : k2 = k
    · simp [setJ, lookupJ, h]
    · simp [setJ, lookupJ, h, ih]

theorem lookupJ_set_ne (kvs : List (Str × Json)) (k k2 : Str) (v : Json) (h : k2 ≠ k) :
    lookupJ (setJ kvs k v) k2 = lookupJ kvs k2 := by
  induction kvs with
  | nil => simp [setJ, lookupJ, Ne.symm h]
  | cons p rest ih =>
    obtain ⟨k3, v3⟩ := p
    simp only [setJ]
    by_cases h1 : k3 = k
    · rw [if_pos h1]
      simp [lookupJ, h1, Ne.symm h]
    · rw [if_neg h1]
      simp [lookupJ, ih]

theorem setJ_setJ (kvs : List (Str × Json)) (k : Str) (v w : Json) :
    setJ (setJ kvs k v) k w = setJ kvs k w := by
  induction kvs with
  | nil => simp [setJ]
  | cons p rest ih =>
    obtain ⟨k2, v2⟩ := p
    by_cases h : k2 = k
    · simp [setJ, h]
    · simp [setJ, h, ih]

theorem setJ_self (kvs : List (Str × Json)) (k : Str) (v : Json)
    (h : lookupJ kvs k = some v) : setJ kvs k v = kvs := by
  induction kvs with
  | nil => simp [lookupJ] at h
  | cons p rest ih =>
    obtain ⟨k2, v2⟩ := p
    by_cases h2 : k2 = k
    · simp only [lookupJ, if_pos h2] at h
      obtain rfl : v2 = v := by injection h
      simp [setJ, h2]
    · simp only [lookupJ, if_neg h2] at h
      simp [setJ, h2, ih h]

theorem lookupJ_mem (kvs : List (Str × Json)) (k : Str) (v : Json)
    (h : lookupJ kvs k = some v) : (k, v) ∈ kvs := by
  induction kvs with
  | nil => simp [lookupJ] at h
  | cons p rest ih =>
    obtain ⟨k2, v2⟩ := p
    by_cases h2 : k2 = k
    · simp only [lookupJ, if_pos h2] at h
      obtain rfl : v2 = v := by injection h
      rw [h2]
      exact List.mem_cons_self ..
    · simp only [lookupJ, if_neg h2] at h
      exact List.mem_cons_of_mem _ (ih h)

theorem nodup_lookupJ (kvs : List (Str × Json)) (hnd : keysNodupJ kvs = true) :
    ∀ p ∈ kvs, lookupJ kvs p.1 = some p.2 := by
  induction kvs with
  | nil => intro p hp; exact absurd hp (List.not_mem_nil p)
  | cons q rest ih =>
    obtain ⟨k2, v2⟩ := q
    simp only [keysNodupJ, Bool.and_eq_true, Bool.not_eq_true'] at hnd
    intro p hp
    rcases List.mem_cons.mp hp with rfl | hp2
    · simp [lookupJ]
    · have hne : k2 ≠ p.1 := by
        intro hh
        have : rest.any (fun q => q.1 = k2) = true := by
          rw [List.any_eq_true]
          exact ⟨p, hp2, by simp [hh]⟩
        rw [this] at hnd
        exact absurd hnd.1 (by decide)
      simp only [lookupJ, if_neg hne]
      exact ih hnd.2 p hp2

theorem sizeOf_lookupJ (kvs : List (Str × Json)) (k : Str) (v : Json)
    (h : lookupJ kvs k = some v) : sizeOf v < sizeOf kvs := by
  have hm := lookupJ_mem kvs k v h
  have h1 := List.sizeOf_lt_of_mem hm
  have h2 : sizeOf ((k, v) : Str × Json) = 1 + sizeOf k + sizeOf v := by simp
  omega

theorem wfKVs_lookupJ (kvs : List (Str × Json)) (k : Str) (v : Json)
    (hwf : Json.wfKVs kvs = true) (h : lookupJ kvs k = some v) :
    Json.wf v = true := by
  induction kvs with
  | nil => simp [lookupJ] at h
  | cons p rest ih =>
    obtain ⟨k2, v2⟩ := p
    simp only [Json.wfKVs, Bool.and_eq_true] at hwf
    by_cases h2 : k2 = k
    · simp only [lookupJ, if_pos h2] at h
      obtain rfl : v2 = v := by injection h
      exact hwf.1
    · simp only [lookupJ, if_neg h2] at h
      exact ih hwf.2 h

theorem merge_nil (t : Json) : mergeJsonSmart t [] = .ok t := rfl

theorem merge_cons_scalar_obj (tkvs : List (Str × Json)) (k : Str) (v : Json)
    (rest : List (Str × Json)) (hv : isScalarJ v = true) :
    mergeJsonSmart (.obj tkvs) ((k, v) :: rest)
      = mergeJsonSmart (.obj (setJ tkvs k v)) rest := by
  cases v <;> simp_all [mergeJsonSmart, objSetJ, isScalarJ, Bind.bind, Except.bind]

theorem merge_cons_obj_some (tkvs : List (Str × Json)) (k : Str)
    (kvs rest : List (Str × Json)) (w r1 : Json)
    (hc : lookupJ tkvs k = some w) (hm : mergeJsonSmart w kvs = .ok r1) :
    mergeJsonSmart (.obj tkvs) ((k, .obj kvs) :: rest)
      = mergeJsonSmart (.obj (setJ tkvs k r1)) rest := by
  have h0 : containsKeyJ (.obj tkvs) k = true := by simp [containsKeyJ, hc]
  have h1 : getKeyD (.obj tkvs) k = w := by simp [getKeyD, hc]
  simp only [mergeJsonSmart, h0, if_true, h1, hm, objSetJ,
    Bind.bind, Except.bind, pure, Except.pure]

theorem merge_cons_obj_some_err (tkvs : List (Str × Json)) (k : Str)
    (kvs rest : List (Str × Json)) (w : Json) (e : Unit)
    (hc : lookupJ tkvs k = some w) (hm : mergeJsonSmart w kvs = .error e) :
    mergeJsonSmart (.obj tkvs) ((k, .obj kvs) :: rest) = .error e := by
  have h0 : containsKeyJ (.obj tkvs) k = true := by simp [containsKeyJ, hc]
  have h1 : getKeyD (.obj tkvs) k = w := by simp [getKeyD, hc]
  simp only [mergeJsonSmart, h0, if_true, h1, hm, objSetJ,
    Bind.bind, Except.bind, pure, Except.pure]

theorem merge_cons_obj_none (tkvs : List (Str × Json)) (k : Str)
    (kvs rest : List (Str × Json)) (r1 : Json)
    (hc : lookupJ tkvs k = none) (hm : mergeJsonSmart (.obj []) kvs = .ok r1) :
    mergeJsonSmart (.obj tkvs) ((k, .obj kvs) :: rest)
      = mergeJsonSmart (.obj (setJ tkvs k r1)) rest := by
  simp [mergeJsonSmart, containsKeyJ, hc, getKeyD, objSetJ, hm,
    lookupJ_set_self, setJ_setJ, Bind.bind, Except.bind]

theorem merge_cons_obj_none_err (tkvs : List (Str × Json)) (k : Str)
    (kvs rest : List (Str × Json)) (e : Unit)
    (hc : lookupJ tkvs k = none) (hm : mergeJsonSmart (.obj []) kvs = .error e) :
    mergeJsonSmart (.obj tkvs) ((k, .obj kvs) :: rest) = .error e := by
  simp [mergeJsonSmart, containsKeyJ, hc, getKeyD, objSetJ, hm,
    lookupJ_set_self, setJ_setJ, Bind.bind, Except.bind]

theorem merge_cons_arr_some (tkvs : List (Str × Json)) (k : Str)
    (items : List Json) (rest : List (Str × Json)) (w r1 : Json)
    (hc : lookupJ tkvs k = some w) (hm : mergeArrayInto w items = .ok r1) :
    mergeJsonSmart (.obj tkvs) ((k, .arr items) :: rest)
      = mergeJsonSmart (.obj (setJ tkvs k r1)) rest := by
  have h0 : containsKeyJ (.obj tkvs) k = true := by simp [containsKeyJ, hc]
  have h1 : getKeyD (.obj tkvs) k = w := by simp [getKeyD, hc]
  simp only [mergeJsonSmart, h0, if_true, h1, hm, objSetJ,
    Bind.bind, Except.bind, pure, Except.pure]

theorem merge_cons_arr_some_err (tkvs : List (Str × Json)) (k : Str)
    (items : List Json) (rest : List (Str × Json)) (w : Json) (e : Unit)
    (hc : lookupJ tkvs k = some w) (hm : mergeArrayInto w items = .error e) :
    mergeJsonSmart (.obj tkvs) ((k, .arr items) :: rest) = .error e := by
  have h0 : containsKeyJ (.obj tkvs) k = true := by simp [containsKeyJ, hc]
  have h1 : getKeyD (.obj tkvs) k = w := by simp [getKeyD, hc]
  simp only [mergeJsonSmart, h0, if_true, h1, hm, objSetJ,
    Bind.bind, Except.bind, pure, Except.pure]

theorem merge_cons_arr_none (tkvs : List (Str × Json)) (k : Str)
    (items : List Json) (rest : List (Str × Json)) (r1 : Json)
    (hc : lookupJ tkvs k = none) (hm : mergeArrayInto (.arr []) items = .ok r1) :
    mergeJsonSmart (.obj tkvs) ((k, .arr items) :: rest)
      = mergeJsonSmart (.obj (setJ tkvs k r1)) rest := by
  simp [mergeJsonSmart, containsKeyJ, hc, getKeyD, objSetJ, hm,
    lookupJ_set_self, setJ_setJ, Bind.bind, Except.bind]

theorem jsonFindElem_arr (xs : List Json) (x : Json) :
    jsonFindElem (.arr xs) x = xs.any (fun e => Json.beq e x) := rfl

theorem mergeArrayInto_arr (items : List Json) : ∀ xs : List Json,
    mergeArrayInto (.arr xs) items = .ok (.arr (dedupAppend xs items)) := by
  induction items with
  | nil => intro xs; rfl
  | cons x rest ih =>
    intro xs
    show (List.foldlM _ _ (x :: rest) : Except Unit Json) = _
    rw [List.foldlM_cons]
    cases hf : jsonFindElem (.arr xs) x
    · have hf2 : (xs.any (fun e => Json.beq e x)) = false := by
        rw [← jsonFindElem_arr]; exact hf
      rw [if_neg (by simp)]
      simp only [jsonPushBack, Bind.bind, Except.bind]
      have hd : dedupAppend xs (x :: rest) = dedupAppend (xs ++ [x]) rest := by
        unfold dedupAppend
        rw [List.foldl_cons, if_neg (by simp [hf2])]
      rw [hd]
      exact ih (xs ++ [x])
    · have hf2 : (xs.any (fun e => Json.beq e x)) = true := by
        rw [← jsonFindElem_arr]; exact hf
      rw [if_pos rfl]
      simp only [Bind.bind, Except.bind, pure, Except.pure]
      have hd : dedupAppend xs (x :: rest) = dedupAppend xs rest := by
        unfold dedupAppend
        rw [List.foldl_cons, if_pos (by simp [hf2])]
      rw [hd]
      exact ih xs

theorem dedupAppend_split (items : List Json) : ∀ xs : List Json,
    ∃ extra, dedupAppend xs items = xs ++ extra ∧ extra.Nodup
      ∧ (∀ x ∈ extra, x ∉ xs) ∧ extra.Sublist items := by
  induction items with
  | nil => intro xs; exact ⟨[], by simp [dedupAppend], List.nodup_nil, by simp, by simp⟩
  | cons y rest ih =>
    intro xs
    cases hf : (xs.any (fun e => Json.beq e y))
    · have hd : dedupAppend xs (y :: rest) = dedupAppend (xs ++ [y]) rest := by
        unfold dedupAppend
        rw [List.foldl_cons, if_neg (by simp [hf])]
      obtain ⟨extra, he, hnd, hnotin, hsub⟩ := ih (xs ++ [y])
      have hy : y ∉ xs := by
        intro hin
        rw [(anyBeq_iff xs y).mpr hin] at hf
        exact absurd hf (by decide)
      refine ⟨y :: extra, ?_, ?_, ?_, ?_⟩
      · rw [hd, he, List.append_assoc]
        rfl
      · refine List.nodup_cons.mpr ⟨?_, hnd⟩
        intro hy2
        exact hnotin y hy2 (by simp)
      · intro x hx
        rcases List.mem_cons.mp hx with rfl | hx2
        · exact hy
        · intro hx3
          exact hnotin x hx2 (by simp [hx3])
      · exact List.Sublist.cons₂ y hsub
    · have hd : dedupAppend xs (y :: rest) = dedupAppend xs rest := by
        unfold dedupAppend
        rw [List.foldl_cons, if_pos (by simp [hf])]
      obtain ⟨extra, he, hnd, hnotin, hsub⟩ := ih xs
      exact ⟨extra, by rw [hd, he], hnd, hnotin, List.Sublist.cons y hsub⟩

theorem dedupAppend_mem (items : List Json) : ∀ (xs : List Json) (x : Json),
    (x ∈ xs ∨ x ∈ items) → x ∈ dedupAppend xs items := by
  induction items with
  | nil =>
    intro xs x h
    rcases h with h | h
    · simpa [dedupAppend] using h
    · exact absurd h (List.not_mem_nil x)
  | cons y rest ih =>
    intro xs x h
    cases hf : (xs.any (fun e => Json.beq e y))
    · have hd : dedupAppend xs (y :: rest) = dedupAppend (xs ++ [y]) rest := by
        unfold dedupAppend
        rw [List.foldl_cons, if_neg (by simp [hf])]
      rw [hd]
      apply ih
      rcases h with h | h
      · exact Or.inl (by simp [h])
      · rcases List.mem_cons.mp h with rfl | h2
        · exact Or.inl (by simp)
        · exact Or.inr h2
    · have hd : dedupAppend xs (y :: rest) = dedupAppend xs rest := by
        unfold dedupAppend
        rw [List.foldl_cons, if_pos (by simp [hf])]
      rw [hd]
      apply ih
      rcases h with h | h
      · exact Or.inl h
      · rcases List.mem_cons.mp h with rfl | h2
        · exact Or.inl ((anyBeq_iff xs x).mp hf)
        · exact Or.inr h2

theorem dedupAppend_idem (items : List Json) : ∀ xs : List Json,
    (∀ x ∈ items, x ∈ xs) → dedupAppend xs items = xs := by
  induction items with
  | nil => intro xs _; rfl
  | cons y rest ih =>
    intro xs h
    have hy : y ∈ xs := h y (List.mem_cons_self ..)
    have hd : dedupAppend xs (y :: rest) = dedupAppend xs rest := by
      unfold dedupAppend
      rw [List.foldl_cons, if_pos (by simp [(anyBeq_iff xs y).mpr hy])]
    rw [hd]
    exact ih xs (fun x hx => h x (List.mem_cons_of_mem _ hx))

theorem dedupAppend_reapply (xs items : List Json) :
    dedupAppend (dedupAppend xs items) items = dedupAppend xs items :=
  dedupAppend_idem items (dedupAppend xs items)
    (fun x hx => dedupAppend_mem items xs x (Or.inr hx))

theorem merge_cons_arr_none_err (tkvs : List (Str × Json)) (k : Str)
    (items : List Json) (rest : List (Str × Json)) (e : Unit)
    (hc : lookupJ tkvs k = none) (hm : mergeArrayInto (.arr []) items = .error e) :
    mergeJsonSmart (.obj tkvs) ((k, .arr items) :: rest) = .error e := by
  simp [mergeJsonSmart, containsKeyJ, hc, getKeyD, objSetJ, hm,
    lookupJ_set_self, setJ_setJ, Bind.bind, Except.bind]

theorem merge_shape (src : List (Str × Json)) : ∀ (tkvs : List (Str × Json)) (r : Json),
    mergeJsonSmart (.obj tkvs) src = .ok r →
    ∃ rkvs, r = .obj rkvs
      ∧ ∀ k2, (∀ p ∈ src, p.1 ≠ k2) → lookupJ rkvs k2 = lookupJ tkvs k2 := by
  induction src with
  | nil =>
    intro tkvs r h
    rw [merge_nil] at h
    obtain rfl : Json.obj tkvs = r := by injection h
    exact ⟨tkvs, rfl, fun _ _ => rfl⟩
  | cons p rest ih =>
    obtain ⟨k, v⟩ := p
    intro tkvs r h
    cases v with
    | obj kvs =>
      cases hc : lookupJ tkvs k with
      | some w =>
        cases hm : mergeJsonSmart w kvs with
        | error e =>
          rw [merge_cons_obj_some_err _ _ _ _ _ _ hc hm] at h
          exact absurd h (by simp)
        | ok r1 =>
          rw [merge_cons_obj_some _ _ _ _ _ _ hc hm] at h
          obtain ⟨rkvs, hr, hpre⟩ := ih _ _ h
          refine ⟨rkvs, hr, fun k2 hk2 => ?_⟩
          rw [hpre k2 (fun p hp => hk2 p (List.mem_cons_of_mem _ hp)),
            lookupJ_set_ne _ _ _ _ (Ne.symm (hk2 (k, _) (List.mem_cons_self ..)))]
      | none =>
        cases hm : mergeJsonSmart (.obj []) kvs with
        | error e =>
          rw [merge_cons_obj_none_err _ _ _ _ _ hc hm] at h
          exact absurd h (by simp)
        | ok r1 =>
          rw [merge_cons_obj_none _ _ _ _ _ hc hm] at h
          obtain ⟨rkvs, hr, hpre⟩ := ih _ _ h
          refine ⟨rkvs, hr, fun k2 hk2 => ?_⟩
          rw [hpre k2 (fun p hp => hk2 p (List.mem_cons_of_mem _ hp)),
            lookupJ_set_ne _ _ _ _ (Ne.symm (hk2 (k, _) (List.mem_cons_self ..)))]
    | arr items =>
      cases hc : lookupJ tkvs k with
      | some w =>
        cases hm : mergeArrayInto w items with
        | error e =>
          rw [merge_cons_arr_some_err _ _ _ _ _ _ hc hm] at h
          exact absurd h (by simp)
        | ok r1 =>
          rw [merge_cons_arr_some _ _ _ _ _ _ hc hm] at h
          obtain ⟨rkvs, hr, hpre⟩ := ih _ _ h
          refine ⟨rkvs, hr, fun k2 hk2 => ?_⟩
          rw [hpre k2 (fun p hp => hk2 p (List.mem_cons_of_mem _ hp)),
            lookupJ_set_ne _ _ _ _ (Ne.symm (hk2 (k, _) (List.mem_cons_self ..)))]
      | none =>
        cases hm : mergeArrayInto (.arr []) items with
        | error e =>
          rw [merge_cons_arr_none_err _ _ _ _ _ hc hm] at h
          exact absurd h (by simp)
        | ok r1 =>
          rw [merge_cons_arr_none _ _ _ _ _ hc hm] at h
          obtain ⟨rkvs, hr, hpre⟩ := ih _ _ h
          refine ⟨rkvs, hr, fun k2 hk2 => ?_⟩
          rw [hpre k2 (fun p hp => hk2 p (List.mem_cons_of_mem _ hp)),
            lookupJ_set_ne _ _ _ _ (Ne.symm (hk2 (k, _) (List.mem_cons_self ..)))]
    | null =>
      rw [merge_cons_scalar_obj tkvs k Json.null rest rfl] at h
      obtain ⟨rkvs, hr, hpre⟩ := ih _ _ h
      refine ⟨rkvs, hr, fun k2 hk2 => ?_⟩
      rw [hpre k2 (fun p hp => hk2 p (List.mem_cons_of_mem _ hp)),
        lookupJ_set_ne _ _ _ _ (Ne.symm (hk2 (k, _) (List.mem_cons_self ..)))]
    | jbool b =>
      rw [merge_cons_scalar_obj tkvs k (Json.jbool b) rest rfl] at h
      obtain ⟨rkvs, hr, hpre⟩ := ih _ _ h
      refine ⟨rkvs, hr, fun k2 hk2 => ?_⟩
      rw [hpre k2 (fun p hp => hk2 p (List.mem_cons_of_mem _ hp)),
        lookupJ_set_ne _ _ _ _ (Ne.symm (hk2 (k, _) (List.mem_cons_self ..)))]
    | num n =>
      rw [merge_cons_scalar_obj tkvs k (Json.num n) rest rfl] at h
      obtain ⟨rkvs, hr, hpre⟩ := ih _ _ h
      refine ⟨rkvs, hr, fun k2 hk2 => ?_⟩
      rw [hpre k2 (fun p hp => hk2 p (List.mem_cons_of_mem _ hp)),
        lookupJ_set_ne _ _ _ _ (Ne.symm (hk2 (k, _) (List.mem_cons_self ..)))]
    | str s =>
      rw [merge_cons_scalar_obj tkvs k (Json.str s) rest rfl] at h
      obtain ⟨rkvs, hr, hpre⟩ := ih _ _ h
      refine ⟨rkvs, hr, fun k2 hk2 => ?_⟩
      rw [hpre k2 (fun p hp => hk2 p (List.mem_cons_of_mem _ hp)),
        lookupJ_set_ne _ _ _ _ (Ne.symm (hk2 (k, _) (List.mem_cons_self ..)))]

theorem merge_cons_ok_inv (tkvs : List (Str × Json)) (k1 : Str) (v1 : Json)
    (rest : List (Str × Json)) (r : Json)
    (h : mergeJsonSmart (.obj tkvs) ((k1, v1) :: rest) = .ok r) :
    ∃ x, mergeJsonSmart (.obj (setJ tkvs k1 x)) rest = .ok r := by
  cases v1 with
  | obj kvs =>
    cases hc : lookupJ tkvs k1 with
    | some w =>
      cases hm : mergeJsonSmart w kvs with
      | error e =>
        rw [merge_cons_obj_some_err _ _ _ _ _ _ hc hm] at h
        exact absurd h (by simp)
      | ok r1 =>
        rw [merge_cons_obj_some _ _ _ _ _ _ hc hm] at h
        exact ⟨r1, h⟩
    | none =>
      cases hm : mergeJsonSmart (.obj []) kvs with
      | error e =>
        rw [merge_cons_obj_none_err _ _ _ _ _ hc hm] at h
        exact absurd h (by simp)
      | ok r1 =>
        rw [merge_cons_obj_none _ _ _ _ _ hc hm] at h
        exact ⟨r1, h⟩
  | arr items =>
    cases hc : lookupJ tkvs k1 with
    | some w =>
      cases hm : mergeArrayInto w items with
      | error e =>
        rw [merge_cons_arr_some_err _ _ _ _ _ _ hc hm] at h
        exact absurd h (by simp)
      | ok r1 =>
        rw [merge_cons_arr_some _ _ _ _ _ _ hc hm] at h
        exact ⟨r1, h⟩
    | none =>
      cases hm : mergeArrayInto (.arr []) items with
      | error e =>
        rw [merge_cons_arr_none_err _ _ _ _ _ hc hm] at h
        exact absurd h (by simp)
      | ok r1 =>
        rw [merge_cons_arr_none _ _ _ _ _ hc hm] at h
        exact ⟨r1, h⟩
  | null =>
    rw [merge_cons_scalar_obj tkvs k1 Json.null rest rfl] at h
    exact ⟨Json.null, h⟩
  | jbool b =>
    rw [merge_cons_scalar_obj tkvs k1 (Json.jbool b) rest rfl] at h
    exact ⟨Json.jbool b, h⟩
  | num n =>
    rw [merge_cons_scalar_obj tkvs k1 (Json.num n) rest rfl] at h
    exact ⟨Json.num n, h⟩
  | str s =>
    rw [merge_cons_scalar_obj tkvs k1 (Json.str s) rest rfl] at h
    exact ⟨Json.str s, h⟩

theorem merge_lookup_key (src : List (Str × Json)) :
    ∀ (tkvs : List (Str × Json)) (r : Json) (k : Str) (v : Json),
      mergeJsonSmart (.obj tkvs) src = .ok r →
      (src.map Prod.fst).Nodup →
      lookupJ src k = some v → isScalarJ v = true →
      ∃ rkvs, r = .obj rkvs ∧ lookupJ rkvs k = some v := by
  induction src with
  | nil => intro tkvs r k v _ _ hs; simp [lookupJ] at hs
  | cons p rest ih =>
    obtain ⟨k1, v1⟩ := p
    intro tkvs r k v h hnd hs hsc
    by_cases hk : k1 = k
    · subst hk
      simp only [lookupJ, if_pos rfl] at hs
      obtain rfl : v1 = v := by injection hs
      rw [merge_cons_scalar_obj tkvs k1 v1 rest hsc] at h
      obtain ⟨rkvs, hr, hpre⟩ := merge_shape rest _ _ h
      have hk1 : ∀ p ∈ rest, p.1 ≠ k1 := by
        simp only [List.map_cons, List.nodup_cons] at hnd
        intro p hp hh
        exact hnd.1 (hh ▸ List.mem_map_of_mem Prod.fst hp)
      refine ⟨rkvs, hr, ?_⟩
      rw [hpre k1 hk1]
      exact lookupJ_set_self ..
    · simp only [lookupJ, if_neg hk] at hs
      obtain ⟨x, h2⟩ := merge_cons_ok_inv tkvs k1 v1 rest r h
      have hnd2 : (rest.map Prod.fst).Nodup := by
        simp only [List.map_cons, List.nodup_cons] at hnd
        exact hnd.2
      exact ih _ r k v h2 hnd2 hs hsc

/-- C4 counterexample: at key "a" the target holds the scalar `5` and
the source holds the mapping `{"b": 1}` — values not both mappings and
not both sequences, a type mismatch of exactly the kind the claim
covers — yet the merge does not complete: the recursive call performs
`target[key]` on a number, which throws (`type_error.305`), modelled as
`Except.error`. -/
theorem c4_mismatch_counterexample :
    mergeJsonSmart (.obj [((("a").toList), .num 5)])
      [((("a").toList), .obj [((("b").toList), .num 1)])] = .error () := rfl

/-- C4 amended: for every key present in both trees whose SOURCE value
is a scalar (neither mapping nor sequence), a completed merge has the
source value at that key, replacing the target value of whatever type.
The original claim's broader mismatch cases do not replace in general:
as the counterexample above shows, a mapping source with a member over
a scalar target throws an `nlohmann` type error instead of completing
with the source value. -/
theorem c4_scalar_source_replaces (tkvs src : List (Str × Json)) (r : Json)
    (k : Str) (v : Json)
    (hok : mergeJsonSmart (.obj tkvs) src = .ok r)
    (hnd : (src.map Prod.fst).Nodup)
    (hs : lookupJ src k = some v) (hsc : isScalarJ v = true)
    (hkT : (lookupJ tkvs k).isSome = true) :
    ∃ rkvs, r = .obj rkvs ∧ lookupJ rkvs k = some v :=
  merge_lookup_key src tkvs r k v hok hnd hs hsc

/-- Witness for `c4_scalar_source_replaces`: merging `{"a": 2}` into
`{"a": 1}` replaces the scalar at "a" with the source's `2`. -/
theorem c4_scalar_source_replaces_witness :
    ∃ rkvs, (Json.obj [((("a").toList), Json.num 2)]) = .obj rkvs
      ∧ lookupJ rkvs (("a").toList) = some (.num 2) :=
  c4_scalar_source_replaces [((("a").toList), .num 1)] [((("a").toList), .num 2)]
    (.obj [((("a").toList), .num 2)]) (("a").toList) (.num 2)
    (by rfl) (by decide) (by rfl) (by rfl) (by rfl)

theorem merge_lookup_key_arr (src : List (Str × Json)) :
    ∀ (tkvs : List (Str × Json)) (r : Json) (k : Str) (items xs : List Json),
      mergeJsonSmart (.obj tkvs) src = .ok r →
      (src.map Prod.fst).Nodup →
      lookupJ src k = some (.arr items) →
      lookupJ tkvs k = some (.arr xs) →
      ∃ rkvs, r = .obj rkvs
        ∧ lookupJ rkvs k = some (.arr (dedupAppend xs items)) := by
  induction src with
  | nil => intro tkvs r k items xs _ _ hs; simp [lookupJ] at hs
  | cons p rest ih =>
    obtain ⟨k1, v1⟩ := p
    intro tkvs r k items xs h hnd hs hxs
    by_cases hk : k1 = k
    · subst hk
      simp only [lookupJ, if_pos rfl] at hs
      obtain rfl : v1 = .arr items := by injection hs
      rw [merge_cons_arr_some tkvs k1 items rest (.arr xs)
        (.arr (dedupAppend xs items)) hxs (mergeArrayInto_arr items xs)] at h
      obtain ⟨rkvs, hr, hpre⟩ := merge_shape rest _ _ h
      have hk1 : ∀ p ∈ rest, p.1 ≠ k1 := by
        simp only [List.map_cons, List.nodup_cons] at hnd
        intro p hp hh
        exact hnd.1 (hh ▸ List.mem_map_of_mem Prod.fst hp)
      refine ⟨rkvs, hr, ?_⟩
      rw [hpre k1 hk1]
      exact lookupJ_set_self ..
    · simp only [lookupJ, if_neg hk] at hs
      obtain ⟨x, h2⟩ := merge_cons_ok_inv tkvs k1 v1 rest r h
      have hnd2 : (rest.map Prod.fst).Nodup := by
        simp only [List.map_cons, List.nodup_cons] at hnd
        exact hnd.2
      have hxs2 : lookupJ (setJ tkvs k1 x) k = some (.arr xs) := by
        rw [lookupJ_set_ne _ _ _ _ (fun hh => hk hh.symm)]
        exact hxs
      exact ih _ r k items xs h2 hnd2 hs hxs2

theorem merge_self_fuel : ∀ (n : Nat) (tkvs : List (Str × Json)),
    sizeOf tkvs ≤ n → Json.wf (.obj tkvs) = true →
    ∀ src, (∀ p ∈ src, lookupJ tkvs p.1 = some p.2) →
    mergeJsonSmart (.obj tkvs) src = .ok (.obj tkvs) := by
  intro n
  induction n with
  | zero =>
    intro tkvs hsz
    exfalso
    cases tkvs <;> simp_arith at hsz
  | succ n ih =>
    intro tkvs hsz hwf src
    have hwf2 : keysNodupJ tkvs = true ∧ Json.wfKVs tkvs = true := by
      simpa [Json.wf, Bool.and_eq_true] using hwf
    induction src with
    | nil => intro _; exact merge_nil _
    | cons p rest ihs =>
      intro hsrc
      obtain ⟨k, v⟩ := p
      have hlk : lookupJ tkvs k = some v := hsrc (k, v) (List.mem_cons_self ..)
      have hrest : ∀ p ∈ rest, lookupJ tkvs p.1 = some p.2 :=
        fun p hp => hsrc p (List.mem_cons_of_mem _ hp)
      cases v with
      | arr xs =>
        rw [merge_cons_arr_some tkvs k xs rest (.arr xs)
          (.arr (dedupAppend xs xs)) hlk (mergeArrayInto_arr xs xs),
          dedupAppend_idem xs xs (fun x hx => hx),
          setJ_self tkvs k (.arr xs) hlk]
        exact ihs hrest
      | obj kvs =>
        have hwfv : Json.wf (.obj kvs) = true := wfKVs_lookupJ tkvs k _ hwf2.2 hlk
        have hndv : keysNodupJ kvs = true := by
          simp only [Json.wf, Bool.and_eq_true] at hwfv
          exact hwfv.1
        have hv : mergeJsonSmart (.obj kvs) kvs = .ok (.obj kvs) := by
          apply ih kvs ?_ hwfv kvs (nodup_lookupJ kvs hndv)
          have hsv := sizeOf_lookupJ tkvs k _ hlk
          have hs2 : sizeOf (Json.obj kvs) = 1 + sizeOf kvs := by simp
          omega
        rw [merge_cons_obj_some tkvs k kvs rest (.obj kvs) (.obj kvs) hlk hv,
          setJ_self tkvs k (.obj kvs) hlk]
        exact ihs hrest
      | null =>
        rw [merge_cons_scalar_obj tkvs k Json.null rest rfl,
          setJ_self tkvs k Json.null hlk]
        exact ihs hrest
      | jbool b =>
        rw [merge_cons_scalar_obj tkvs k (Json.jbool b) rest rfl,
          setJ_self tkvs k (Json.jbool b) hlk]
        exact ihs hrest
      | num m =>
        rw [merge_cons_scalar_obj tkvs k (Json.num m) rest rfl,
          setJ_self tkvs k (Json.num m) hlk]
        exact ihs hrest
      | str s =>
        rw [merge_cons_scalar_obj tkvs k (Json.str s) rest rfl,
          setJ_self tkvs k (Json.str s) hlk]
        exact ihs hrest

theorem merge_self (tkvs : List (Str × Json)) (hwf : Json.wf (.obj tkvs) = true) :
    mergeJsonSmart (.obj tkvs) tkvs = .ok (.obj tkvs) := by
  have hnd : keysNodupJ tkvs = true := by
    simp only [Json.wf, Bool.and_eq_true] at hwf
    exact hwf.1
  exact merge_self_fuel (sizeOf tkvs) tkvs le_rfl hwf tkvs (nodup_lookupJ tkvs hnd)

/-- C5: at a key where target and source both hold sequences, a
completed `merge_json_smart` stores the target sequence followed by the
source elements not already present (`dedupAppend`, the evolving
de-duplicated union); the union contains every element of both sides,
appends no duplicates of existing elements (the appended part is
duplicate-free, disjoint from the target, and in source order);
re-applying the merge with the same source changes nothing; and merging
a well-formed tree into itself returns the tree unchanged (same mapping
keys, same sequence contents). -/
theorem c5_merge_sequences :
    (∀ (tkvs src : List (Str × Json)) (r : Json) (k : Str) (items xs : List Json),
        mergeJsonSmart (.obj tkvs) src = .ok r →
        (src.map Prod.fst).Nodup →
        lookupJ src k = some (.arr items) →
        lookupJ tkvs k = some (.arr xs) →
        ∃ rkvs, r = .obj rkvs
          ∧ lookupJ rkvs k = some (.arr (dedupAppend xs items)))
    ∧ (∀ xs items : List Json, ∃ extra, dedupAppend xs items = xs ++ extra
        ∧ extra.Nodup ∧ (∀ x ∈ extra, x ∉ xs) ∧ extra.Sublist items)
    ∧ (∀ (xs items : List Json) (x : Json),
        x ∈ xs ∨ x ∈ items → x ∈ dedupAppend xs items)
    ∧ (∀ xs items : List Json,
        dedupAppend (dedupAppend xs items) items = dedupAppend xs items)
    ∧ (∀ tkvs : List (Str × Json), Json.wf (.obj tkvs) = true →
        mergeJsonSmart (.obj tkvs) tkvs = .ok (.obj tkvs)) := by
  refine ⟨?_, ?_, ?_, ?_, ?_⟩
  · intro tkvs src r k items xs hok hnd hs hxs
    exact merge_lookup_key_arr src tkvs r k items xs hok hnd hs hxs
  · intro xs items
    exact dedupAppend_split items xs
  · intro xs items x h
    exact dedupAppend_mem items xs x h
  · intro xs items
    exact dedupAppend_reapply xs items
  · intro tkvs hwf
    exact merge_self tkvs hwf

/-- Witness for `c5_merge_sequences`: merging `{"a": [1, 2, 1]}` into
`{"a": [2, 3]}` yields the de-duplicated union `[2, 3, 1]` at "a", and
merging `{"a": [1]}` into itself returns it unchanged. -/
theorem c5_merge_sequences_witness :
    (∃ rkvs, (Json.obj [((("a").toList), Json.arr [.num 2, .num 3, .num 1])])
        = Json.obj rkvs
      ∧ lookupJ rkvs (("a").toList)
          = some (.arr (dedupAppend [Json.num 2, Json.num 3]
              [Json.num 1, Json.num 2, Json.num 1])))
    ∧ mergeJsonSmart (.obj [((("a").toList), Json.arr [.num 1])])
        [((("a").toList), Json.arr [.num 1])]
      = .ok (.obj [((("a").toList), Json.arr [.num 1])]) :=
  ⟨c5_merge_sequences.1 [((("a").toList), Json.arr [.num 2, .num 3])]
      [((("a").toList), Json.arr [.num 1, .num 2, .num 1])]
      (.obj [((("a").toList), Json.arr [.num 2, .num 3, .num 1])])
      (("a").toList) [Json.num 1, Json.num 2, Json.num 1] [Json.num 2, Json.num 3]
      (by rfl) (by decide) (by rfl) (by rfl),
    c5_merge_sequences.2.2.2.2 [((("a").toList), Json.arr [.num 1])] (by rfl)⟩
